import Mathlib

/-!
Verification of the snarkVM request/transition/coinbase-puzzle core.

The development shallowly embeds the algorithms of the repository:
the console request signer, the circuit request verifier, transition
assembly, the byte codecs of transitions and transition outputs, and the
coinbase puzzle (prove, accumulate, verify, product domain).

Cryptographic primitives (Poseidon and BHP hashes, hash-to-group,
hash-to-scalar, record commitments, symmetric encryption, KZG operations)
are opaque parameters bundled in environment structures, exactly as the
specification treats them: black boxes with fixed input/output contracts.
The elliptic-curve group is an arbitrary module over the scalar ring, so
every algebraic identity proved here holds for the concrete curve.
-/

namespace SnarkVM

/-- A record value: an owner address, a gates balance (a u64 value), and an
abstract data payload. -/
structure Rec (G D : Type) where
  owner : G
  gates : ℕ
  payload : D
deriving DecidableEq

/-- A program value is either a plaintext or a record. -/
inductive Value (G D P : Type) where
  | plaintext (p : P)
  | record (r : Rec G D)
deriving DecidableEq

/-- The declared visibility of a function input or output. -/
inductive ValueType (IDENT : Type) where
  | constant
  | public
  | priv
  | record (name : IDENT)
  | external
deriving DecidableEq

/-- The input ID of a request, keyed by declared visibility. -/
inductive InputID (F G : Type) where
  | constant (h : F)
  | public (h : F)
  | priv (h : F)
  | record (cm : F) (gamma : G) (sn : F) (tag : F)
  | external (h : F)
deriving DecidableEq

/-- Signing public key material: pk_sig and pr_sig. -/
structure ComputeKey (G : Type) where
  pkSig : G
  prSig : G

/-- A Schnorr-style signature: challenge, response and the compute key. -/
structure Signature (S G : Type) where
  challenge : S
  response : S
  ck : ComputeKey G

/-- A private key holds the signing scalar sk_sig and the scalar r_sig. -/
structure PrivateKey (S : Type) where
  skSig : S
  rSig : S

/-- A transition output, in the five visibility kinds. -/
inductive Output (F P C RC : Type) where
  | constant (h : F) (p : Option P)
  | public (h : F) (p : Option P)
  | priv (h : F) (c : Option C)
  | record (cm : F) (checksum : F) (rc : Option RC)
  | external (cm : F)
deriving DecidableEq

/-- An output ID of a response. -/
inductive OutputID (F : Type) where
  | constant (h : F)
  | public (h : F)
  | priv (h : F)
  | record (cm : F) (checksum : F)
  | external (h : F)
deriving DecidableEq

/-- A register reference; only the locator is relevant here. -/
structure Register where
  locator : ℕ

/-- The opaque cryptographic primitives of a network, mirroring the
N: Network trait bound used by the source. Hash functions, commitments and
encryptions are arbitrary functions; the group law is supplied by the
Module instance of G over S. -/
structure Network (F S G P C RC D PID IDENT : Type) where
  netId : ℕ
  hashPsd2 : List F → F
  hashPsd4 : List F → F
  hashPsd8 : List F → F
  hashBhp1024 : List Bool → F
  hashToScalarPsd2 : List F → S
  hashToScalarPsd4 : List F → S
  hashToScalarPsd8 : List F → S
  hashToGroupPsd2 : List F → G
  gBase : G
  xCoord : G → F
  snDomain : F
  scalarToField : S → F
  fnTupleBits : ℕ → PID → IDENT → List Bool
  fieldOfU16 : ℕ → F
  fieldOfU64 : ℕ → F
  plainToFields : P → List F
  recToFields : Rec G D → List F
  cipherToFields : C → List F
  encryptSym : P → F → C
  recCommit : Rec G D → PID → IDENT → F
  snFromGamma : G → F → F
  tagOf : F → F → F
  toAddr : G → G → G
  skTagOf : S → S → F
  encryptRecord : Rec G D → S → RC
  rcToBits : RC → List Bool
  outVerify : Output F P C RC → F → F → ℕ → Bool

/-- A signed request. -/
structure Request (F S G P D PID IDENT : Type) where
  caller : G
  networkId : ℕ
  programId : PID
  functionName : IDENT
  inputIds : List (InputID F G)
  inputs : List (Value G D P)
  sig : Signature S G
  skTag : F
  tvk : F
  tsk : S
  tcm : F

section RequestProtocol

variable {F S G P C RC D PID IDENT : Type}
variable [CommRing S] [AddCommGroup G] [Module S G]
variable [DecidableEq F] [DecidableEq S] [DecidableEq G]

/-- Value::to_fields, dispatching on the value kind. -/
def Network.valueToFields (nw : Network F S G P C RC D PID IDENT) :
    Value G D P → List F
  | .plaintext p => nw.plainToFields p
  | .record r => nw.recToFields r

/-- The function ID, Hash_bhp1024 over the bits of
(network_id, program_id.name, program_id.network, function_name). -/
def Network.functionId (nw : Network F S G P C RC D PID IDENT)
    (netId : ℕ) (pid : PID) (fname : IDENT) : F :=
  nw.hashBhp1024 (nw.fnTupleBits netId pid fname)

/-- The check in Request::sign that all bits of the gates value at
positions 52 and above are clear (the record balance fits in 52 bits). -/
def gatesHighBitsClear (gates : ℕ) : Bool :=
  ((List.range 64).drop 52).all (fun i => !(gates.testBit i))

/-- The fold in the circuit check_input_ids that ORs together the bits of
the gates value at positions 52 and above. -/
def gatesHighBitsAny (gates : ℕ) : Bool :=
  ((List.range 64).drop 52).foldl (fun acc i => acc || gates.testBit i) false

/-- The four-element transcript contribution of a record input:
(H.x, (r*H).x, gamma.x, tag). -/
def recordMsg (nw : Network F S G P C RC D PID IDENT)
    (h hr gamma : G) (tag : F) : List F :=
  [nw.xCoord h, nw.xCoord hr, nw.xCoord gamma, tag]

/-- The verifier reconstruction of r*H from the signature:
h_r = challenge * gamma + response * H. -/
def verifierHR (challenge response : S) (gamma h : G) : G :=
  challenge • gamma + response • h

/-- One loop iteration of Request::sign: derives the input ID and the
transcript contribution of one input, failing on a type mismatch, a
foreign record owner, or an oversized gates value. -/
def signInput (nw : Network F S G P C RC D PID IDENT)
    (pid : PID) (fname : IDENT) (functionId tvk tcm : F)
    (skSig : S) (skTag : F) (r : S) (caller : G) (idx : ℕ)
    (input : Value G D P) (ty : ValueType IDENT) :
    Option (InputID F G × List F) :=
  match ty with
  | .constant =>
    match input with
    | .plaintext _ =>
      if idx < 65536 then
        let ih := nw.hashPsd8 (functionId :: nw.valueToFields input ++ [tcm, nw.fieldOfU16 idx])
        some (.constant ih, [ih])
      else none
    | .record _ => none
  | .public =>
    match input with
    | .plaintext _ =>
      if idx < 65536 then
        let ih := nw.hashPsd8 (functionId :: nw.valueToFields input ++ [tcm, nw.fieldOfU16 idx])
        some (.public ih, [ih])
      else none
    | .record _ => none
  | .priv =>
    match input with
    | .plaintext p =>
      if idx < 65536 then
        let ivk := nw.hashPsd4 [functionId, tvk, nw.fieldOfU16 idx]
        let ih := nw.hashPsd8 (nw.cipherToFields (nw.encryptSym p ivk))
        some (.priv ih, [ih])
      else none
    | .record _ => none
  | .record name =>
    match input with
    | .record r0 =>
      let cm := nw.recCommit r0 pid name
      if r0.owner = caller then
        if gatesHighBitsClear r0.gates then
          let h := nw.hashToGroupPsd2 [nw.snDomain, cm]
          let hr := r • h
          let gamma := skSig • h
          let sn := nw.snFromGamma gamma cm
          let tag := nw.tagOf skTag cm
          some (.record cm gamma sn tag, recordMsg nw h hr gamma tag)
        else none
      else none
    | .plaintext _ => none
  | .external =>
    match input with
    | .record r0 =>
      if idx < 65536 then
        let ih := nw.hashPsd8 (functionId :: nw.recToFields r0 ++ [tvk, nw.fieldOfU16 idx])
        some (.external ih, [ih])
      else none
    | .plaintext _ => none

/-- The input loop of Request::sign over the enumerated (input, type)
pairs, accumulating input IDs and transcript contributions in order. -/
def signInputs (nw : Network F S G P C RC D PID IDENT)
    (pid : PID) (fname : IDENT) (functionId tvk tcm : F)
    (skSig : S) (skTag : F) (r : S) (caller : G) :
    ℕ → List (Value G D P × ValueType IDENT) → Option (List (InputID F G) × List F)
  | _, [] => some ([], [])
  | idx, (v, ty) :: rest => do
    let (iid, contrib) ← signInput nw pid fname functionId tvk tcm skSig skTag r caller idx v ty
    let (ids, msg) ← signInputs nw pid fname functionId tvk tcm skSig skTag r caller (idx + 1) rest
    some (iid :: ids, contrib ++ msg)

/-- The address derived from the compute key of a private key.
Modelled from the spec: identity derivation expands a private key into
pk_sig = sk_sig * G, pr_sig = r_sig * G and an address derived from the
compute key (the console account code is an external collaborator). -/
def signerAddress (nw : Network F S G P C RC D PID IDENT)
    (sk : PrivateKey S) : G :=
  nw.toAddr (sk.skSig • nw.gBase) (sk.rSig • nw.gBase)

/-- Request::sign. The random nonce sampled from the RNG is passed as an
argument; everything else follows src/console/program/src/request/sign.rs:
derive the key material, compute r, tpk, tvk, tcm and the function ID,
process every input, and sign the transcript. -/
def sign (nw : Network F S G P C RC D PID IDENT)
    (sk : PrivateKey S) (pid : PID) (fname : IDENT)
    (inputs : List (Value G D P)) (inputTypes : List (ValueType IDENT))
    (nonce : F) : Option (Request F S G P D PID IDENT) :=
  if inputTypes.length ≠ inputs.length then none else
  let skSig := sk.skSig
  let skTag := nw.skTagOf sk.skSig sk.rSig
  let pkSig := skSig • nw.gBase
  let prSig := sk.rSig • nw.gBase
  let r := nw.hashToScalarPsd4 [nw.snDomain, nw.scalarToField skSig, nonce]
  let gr := r • nw.gBase
  let caller := nw.toAddr pkSig prSig
  let tvk := nw.xCoord (r • caller)
  let tcm := nw.hashPsd2 [tvk]
  let functionId := nw.functionId nw.netId pid fname
  match signInputs nw pid fname functionId tvk tcm skSig skTag r caller 0 (inputs.zip inputTypes) with
  | none => none
  | some (ids, contribs) =>
    let message := [nw.xCoord gr, nw.xCoord pkSig, nw.xCoord prSig, nw.xCoord caller, tvk, tcm, functionId] ++ contribs
    let challenge := nw.hashToScalarPsd8 message
    let response := r - challenge * skSig
    some { caller := caller, networkId := nw.netId, programId := pid, functionName := fname,
           inputIds := ids, inputs := inputs,
           sig := ⟨challenge, response, ⟨pkSig, prSig⟩⟩,
           skTag := skTag, tvk := tvk, tsk := r, tcm := tcm }

/-- Request::to_tpk, deriving the transition public key from the signature.
Modelled from the spec: the signature invariant response = r - challenge *
sk_sig must satisfy tpk = challenge * pk_sig + response * G (the console
request accessor is an external collaborator). -/
def toTpk (nw : Network F S G P C RC D PID IDENT)
    (req : Request F S G P D PID IDENT) : G :=
  req.sig.challenge • req.sig.ck.pkSig + req.sig.response • nw.gBase

/-- One iteration of the circuit Request::check_input_ids (specialised to
CREATE_MESSAGE = true, the instantiation used by Request::verify): checks
one input against its input ID and returns the check bit together with the
transcript contribution. A structural mismatch halts (none). -/
def checkInput (nw : Network F S G P C RC D PID IDENT)
    (pid : PID) (fname : IDENT) (functionId : F) (caller : G)
    (skTag tvk tcm : F) (sg : Signature S G) (idx : ℕ)
    (iid : InputID F G) (input : Value G D P) (ty : ValueType IDENT) :
    Option (Bool × List F) :=
  match iid with
  | .constant ih =>
    let idxF := nw.fieldOfU16 (idx % 65536)
    let preimage := functionId :: nw.valueToFields input ++ [tcm, idxF]
    match input with
    | .plaintext _ => some (decide (ih = nw.hashPsd8 preimage), [ih])
    | .record _ => none
  | .public ih =>
    let idxF := nw.fieldOfU16 (idx % 65536)
    let preimage := functionId :: nw.valueToFields input ++ [tcm, idxF]
    match input with
    | .plaintext _ => some (decide (ih = nw.hashPsd8 preimage), [ih])
    | .record _ => none
  | .priv ih =>
    let idxF := nw.fieldOfU16 (idx % 65536)
    let ivk := nw.hashPsd4 [functionId, tvk, idxF]
    match input with
    | .plaintext p =>
      some (decide (ih = nw.hashPsd8 (nw.cipherToFields (nw.encryptSym p ivk))), [ih])
    | .record _ => none
  | .record cm gamma sn tag =>
    match input with
    | .record r0 =>
      match ty with
      | .record name =>
        let candCm := nw.recCommit r0 pid name
        let candSn := nw.snFromGamma gamma candCm
        let candTag := nw.tagOf skTag candCm
        let h := nw.hashToGroupPsd2 [nw.snDomain, candCm]
        let hr := verifierHR sg.challenge sg.response gamma h
        some ((decide (sn = candSn) && decide (cm = candCm) && decide (tag = candTag)
               && decide (r0.owner = caller) && !gatesHighBitsAny r0.gates),
              recordMsg nw h hr gamma candTag)
      | _ => none
    | .plaintext _ => none
  | .external ih =>
    match input with
    | .record r0 =>
      let idxF := nw.fieldOfU16 (idx % 65536)
      let preimage := functionId :: nw.recToFields r0 ++ [tvk, idxF]
      some (decide (ih = nw.hashPsd8 preimage), [ih])
    | .plaintext _ => none

/-- The enumerated fold of check_input_ids: conjunction of the per-input
check bits, concatenation of the per-input transcript contributions. -/
def checkInputs (nw : Network F S G P C RC D PID IDENT)
    (pid : PID) (fname : IDENT) (functionId : F) (caller : G)
    (skTag tvk tcm : F) (sg : Signature S G) :
    ℕ → List (InputID F G × Value G D P × ValueType IDENT) → Option (Bool × List F)
  | _, [] => some (true, [])
  | idx, (iid, v, ty) :: rest => do
    let (b, contrib) ← checkInput nw pid fname functionId caller skTag tvk tcm sg idx iid v ty
    let (brest, msg) ← checkInputs nw pid fname functionId caller skTag tvk tcm sg (idx + 1) rest
    some (b && brest, contrib ++ msg)

/-- The circuit Request::verify, over plain values: recompute the function
ID, check the input IDs and rebuild the transcript, check tpk/tvk/tcm
well-formedness, and check the Schnorr signature. Structural mismatches
halt (none); every cryptographic mismatch folds into the boolean. -/
def verify (nw : Network F S G P C RC D PID IDENT)
    (req : Request F S G P D PID IDENT)
    (inputTypes : List (ValueType IDENT)) (tpk : G) : Option Bool :=
  let functionId := nw.functionId req.networkId req.programId req.functionName
  if req.inputIds.length = req.inputs.length ∧ req.inputs.length = inputTypes.length then
    match checkInputs nw req.programId req.functionName functionId req.caller req.skTag
        req.tvk req.tcm req.sig 0 (req.inputIds.zip (req.inputs.zip inputTypes)) with
    | none => none
    | some (inputChecks, contribs) =>
      let message := [req.tvk, req.tcm, functionId] ++ contribs
      let tvkChecks :=
        let candTpk := req.tsk • nw.gBase
        let tvk2 := nw.xCoord (req.tsk • req.caller)
        let tcm2 := nw.hashPsd2 [tvk2]
        decide (tpk = candTpk) && decide (tpk = toTpk nw req)
          && decide (tvk2 = req.tvk) && decide (tcm2 = req.tcm)
      let sigChecks :=
        let pkSig := req.sig.ck.pkSig
        let prSig := req.sig.ck.prSig
        let preimage := [nw.xCoord tpk, nw.xCoord pkSig, nw.xCoord prSig, nw.xCoord req.caller] ++ message
        let candChallenge := nw.hashToScalarPsd8 preimage
        let candAddr := nw.toAddr pkSig prSig
        decide (req.sig.challenge = candChallenge) && decide (req.caller = candAddr)
      some (sigChecks && inputChecks && tvkChecks)
  else none

/-- A well-typed input for its declared type: plaintext where a plaintext
is declared, a record owned by the given caller with a 52-bit gates value
where a record is declared, a record where an external record is declared. -/
def ValidPair (caller : G) : Value G D P → ValueType IDENT → Prop
  | .plaintext _, .constant => True
  | .plaintext _, .public => True
  | .plaintext _, .priv => True
  | .record r0, .record _ => r0.owner = caller ∧ gatesHighBitsClear r0.gates = true
  | .record _, .external => True
  | _, _ => False

end RequestProtocol

section TransitionAssembly

variable {F S G P C RC D PID IDENT : Type}
variable [CommRing S] [AddCommGroup G] [Module S G]
variable [DecidableEq F] [DecidableEq S] [DecidableEq G]

/-- One iteration of the output loop of Transition::from: checks one
response output against its output ID and constructs the transition
output. Constant and public outputs are re-verified through Output::verify
at sequential index num_inputs + index; a private output is re-encrypted
under Hash_psd4(function ID, tvk, num_inputs + index) and hash-compared; a
record output is re-committed and re-encrypted under the randomizer
HashToScalar_psd2(tvk, Field(locator)) of its output register; an external
record output is re-hashed at the sequential index. Any mismatch is a
fatal construction error. -/
def processOutput (nw : Network F S G P C RC D PID IDENT)
    (functionId tvk tcm : F) (pid : PID) (numInputs idx : ℕ)
    (oid : OutputID F) (output : Value G D P) (oty : ValueType IDENT)
    (reg : Register) : Except String (Output F P C RC) :=
  match oid, output with
  | .constant oh, .plaintext p =>
    let out := Output.constant oh (some p)
    if nw.outVerify out functionId tcm (numInputs + idx) then Except.ok out
    else Except.error "Malformed constant transition output"
  | .public oh, .plaintext p =>
    let out := Output.public oh (some p)
    if nw.outVerify out functionId tcm (numInputs + idx) then Except.ok out
    else Except.error "Malformed public transition output"
  | .priv oh, .plaintext p =>
    let idxF := nw.fieldOfU16 ((numInputs + idx) % 65536)
    let ct := nw.encryptSym p (nw.hashPsd4 [functionId, tvk, idxF])
    if oh = nw.hashPsd8 (nw.cipherToFields ct) then Except.ok (Output.priv oh (some ct))
    else Except.error "The output ciphertext hash is incorrect"
  | .record cm ck, .record r0 =>
    match oty with
    | .record rname =>
      let candCm := nw.recCommit r0 pid rname
      if cm = candCm then
        let idxF := nw.fieldOfU64 reg.locator
        let randomizer := nw.hashToScalarPsd2 [tvk, idxF]
        let rc := nw.encryptRecord r0 randomizer
        if ck = nw.hashBhp1024 (nw.rcToBits rc) then Except.ok (Output.record cm ck (some rc))
        else Except.error "The output record ciphertext checksum is incorrect"
      else Except.error "The output record commitment is incorrect"
    | _ => Except.error "Expected a record type at output"
  | .external oh, .record r0 =>
    let idxF := nw.fieldOfU16 ((numInputs + idx) % 65536)
    let preimage := functionId :: nw.recToFields r0 ++ [tvk, idxF]
    if oh = nw.hashPsd8 preimage then Except.ok (Output.external oh)
    else Except.error "The output external hash is incorrect"
  | _, _ => Except.error "Malformed response output"

end TransitionAssembly

section ByteCodecs

/-- An external byte codec for one component type: a serializer and a
stream decoder that returns the decoded value and the remaining bytes. -/
structure Codec (β : Type) where
  ser : β → List ℕ
  deser : List ℕ → Option (β × List ℕ)

/-- A lawful codec decodes exactly what it encoded and leaves the rest of
the stream untouched. -/
abbrev Codec.Lawful {β : Type} (c : Codec β) : Prop :=
  ∀ x rest, c.deser (c.ser x ++ rest) = some (x, rest)

/-- Little-endian u16 encoding: write_le of a length or version word. A
wider value is truncated exactly as the `as u16` cast does. -/
def u16Bytes (n : ℕ) : List ℕ :=
  [n % 256, n / 256 % 256]

/-- Little-endian u16 decoding. -/
def readU16 : List ℕ → Option (ℕ × List ℕ)
  | b0 :: b1 :: r => some (b0 % 256 + 256 * (b1 % 256), r)
  | _ => none

/-- u8 decoding: one byte off the stream. -/
def readU8 : List ℕ → Option (ℕ × List ℕ)
  | b :: r => some (b % 256, r)
  | _ => none

/-- Little-endian base-256 encoding of a natural into k bytes. -/
def natLE : ℕ → ℕ → List ℕ
  | 0, _ => []
  | k + 1, n => n % 256 :: natLE k (n / 256)

/-- Little-endian base-256 decoding of k bytes. -/
def readNatLE : ℕ → List ℕ → Option (ℕ × List ℕ)
  | 0, bs => some (0, bs)
  | _ + 1, [] => none
  | k + 1, b :: bs =>
    match readNatLE k bs with
    | some (n, rest) => some (b % 256 + 256 * n, rest)
    | none => none

/-- Little-endian two-complement encoding of an i64 fee. -/
def i64Bytes (z : ℤ) : List ℕ :=
  natLE 8 (z % (2 ^ 64)).toNat

/-- Little-endian two-complement decoding of an i64 fee. -/
def readI64 (bs : List ℕ) : Option (ℤ × List ℕ) :=
  match readNatLE 8 bs with
  | some (n, rest) => some (if n < 2 ^ 63 then (n : ℤ) else (n : ℤ) - 2 ^ 64, rest)
  | none => none

/-- The transition model for serialization: the stored identifier, program
and function identity, inputs, outputs, optional finalize inputs, proof,
transition public key, transition commitment, and fee. -/
structure Transition (TID PID2 FN INP OUTP VAL PRF TPK TCM : Type) where
  id : TID
  programId : PID2
  functionName : FN
  inputs : List INP
  outputs : List OUTP
  finalize : Option (List VAL)
  proof : PRF
  tpk : TPK
  tcm : TCM
  fee : ℤ

/-- The component codecs of a transition, plus the function-tree root used
by Transition::new to derive the transition ID from inputs and outputs. -/
structure TransitionCodecs (TID PID2 FN INP OUTP VAL PRF TPK TCM : Type) where
  tid : Codec TID
  pid : Codec PID2
  fname : Codec FN
  inp : Codec INP
  outp : Codec OUTP
  val : Codec VAL
  prf : Codec PRF
  tpk : Codec TPK
  tcm : Codec TCM
  root : List INP → List OUTP → TID

variable {TID PID2 FN INP OUTP VAL PRF TPK TCM : Type}

/-- Transition write_le: version 0, transition ID, program ID, function
name, length-prefixed inputs and outputs, finalize variant and inputs,
proof, tpk, tcm, fee. -/
def transitionToBytes (cs : TransitionCodecs TID PID2 FN INP OUTP VAL PRF TPK TCM)
    (t : Transition TID PID2 FN INP OUTP VAL PRF TPK TCM) : List ℕ :=
  u16Bytes 0 ++ cs.tid.ser t.id ++ cs.pid.ser t.programId ++ cs.fname.ser t.functionName ++
  u16Bytes t.inputs.length ++ (t.inputs.map cs.inp.ser).flatten ++
  u16Bytes t.outputs.length ++ (t.outputs.map cs.outp.ser).flatten ++
  (match t.finalize with
   | none => [0]
   | some fs => [1] ++ u16Bytes fs.length ++ (fs.map cs.val.ser).flatten) ++
  cs.prf.ser t.proof ++ cs.tpk.ser t.tpk ++ cs.tcm.ser t.tcm ++ i64Bytes t.fee

/-- Reads a counted sequence of components off the stream. -/
def readCount {β : Type} (c : Codec β) : ℕ → List ℕ → Option (List β × List ℕ)
  | 0, bs => some ([], bs)
  | k + 1, bs => do
    let (x, bs1) ← c.deser bs
    let (xs, bs2) ← readCount c k bs1
    some (x :: xs, bs2)

/-- Lifts a stream read into the decoder error monad. -/
def orFail {β : Type} : Option β → Except String β
  | some b => Except.ok b
  | none => Except.error "Failed to read bytes"

/-- Transition read_le: rejects a nonzero version, reads every component,
rebuilds the transition through Transition::new (which recomputes the ID
as the function-tree root over the decoded inputs and outputs), and
rejects the buffer when the stored ID disagrees with the recomputed one. -/
def transitionFromBytes (cs : TransitionCodecs TID PID2 FN INP OUTP VAL PRF TPK TCM)
    [DecidableEq TID] (bs : List ℕ) :
    Except String (Transition TID PID2 FN INP OUTP VAL PRF TPK TCM) := do
  let (version, r1) ← orFail (readU16 bs)
  if version ≠ 0 then Except.error "Invalid transition version" else do
  let (tid, r2) ← orFail (cs.tid.deser r1)
  let (pid, r3) ← orFail (cs.pid.deser r2)
  let (fname, r4) ← orFail (cs.fname.deser r3)
  let (numIn, r5) ← orFail (readU16 r4)
  let (inputs, r6) ← orFail (readCount cs.inp numIn r5)
  let (numOut, r7) ← orFail (readU16 r6)
  let (outputs, r8) ← orFail (readCount cs.outp numOut r7)
  let (fv, r9) ← orFail (readU8 r8)
  let (finalize, r10) ←
    (match fv with
     | 0 => Except.ok ((none : Option (List VAL)), r9)
     | 1 => do
       let (nf, ra) ← orFail (readU16 r9)
       let (fs, rb) ← orFail (readCount cs.val nf ra)
       Except.ok (some fs, rb)
     | _ => Except.error "Invalid transition finalize variant")
  let (proof, r11) ← orFail (cs.prf.deser r10)
  let (tpk, r12) ← orFail (cs.tpk.deser r11)
  let (tcm, r13) ← orFail (cs.tcm.deser r12)
  let (fee, _) ← orFail (readI64 r13)
  let tid2 := cs.root inputs outputs
  let t : Transition TID PID2 FN INP OUTP VAL PRF TPK TCM :=
    ⟨tid2, pid, fname, inputs, outputs, finalize, proof, tpk, tcm, fee⟩
  if tid = tid2 then Except.ok t
  else Except.error "Transition ID is incorrect, possible data corruption"

/-- Encoding of a bool flag preceding an optional payload. -/
def boolBytes (b : Bool) : List ℕ :=
  [if b then 1 else 0]

/-- Decoding of a bool flag; any byte other than 0 or 1 is an error. -/
def readBool : List ℕ → Option (Bool × List ℕ)
  | 0 :: r => some (false, r)
  | 1 :: r => some (true, r)
  | _ => none

/-- Encoding of an optional payload: presence flag, then the payload. -/
def optBytes {β : Type} (c : Codec β) : Option β → List ℕ
  | some x => boolBytes true ++ c.ser x
  | none => boolBytes false

/-- Decoding of an optional payload. -/
def readOpt {β : Type} (c : Codec β) (bs : List ℕ) : Option (Option β × List ℕ) := do
  let (e, r1) ← readBool bs
  match e with
  | true => do
    let (x, r2) ← c.deser r1
    some (some x, r2)
  | false => some (none, r1)

/-- Output write_le: a variant tag then the variant-specific fields.
Modelled from the spec: the Variant alias (the tag width, a single byte)
is declared outside this repository slice; the spec fixes the layout as a
u8 variant tag 0..4. -/
def outputToBytes {F P C RC : Type} (fc : Codec F) (pc : Codec P) (cc : Codec C)
    (rcc : Codec RC) : Output F P C RC → List ℕ
  | .constant h p => 0 :: fc.ser h ++ optBytes pc p
  | .public h p => 1 :: fc.ser h ++ optBytes pc p
  | .priv h c => 2 :: fc.ser h ++ optBytes cc c
  | .record cm ck rc => 3 :: fc.ser cm ++ fc.ser ck ++ optBytes rcc rc
  | .external cm => 4 :: fc.ser cm

/-- Output read_le: dispatches on the variant tag; a tag of 5 or greater
fails to decode. -/
def outputFromBytes {F P C RC : Type} (fc : Codec F) (pc : Codec P) (cc : Codec C)
    (rcc : Codec RC) : List ℕ → Option (Output F P C RC × List ℕ)
  | [] => none
  | v :: r =>
    match v with
    | 0 => do
      let (h, r1) ← fc.deser r
      let (p, r2) ← readOpt pc r1
      some (Output.constant h p, r2)
    | 1 => do
      let (h, r1) ← fc.deser r
      let (p, r2) ← readOpt pc r1
      some (Output.public h p, r2)
    | 2 => do
      let (h, r1) ← fc.deser r
      let (c, r2) ← readOpt cc r1
      some (Output.priv h c, r2)
    | 3 => do
      let (cm, r1) ← fc.deser r
      let (ck, r2) ← fc.deser r1
      let (rc, r3) ← readOpt rcc r2
      some (Output.record cm ck rc, r3)
    | 4 => do
      let (cm, r1) ← fc.deser r
      some (Output.external cm, r1)
    | _ => none

end ByteCodecs

section CoinbasePuzzleModel

/-- A partial solution to the coinbase puzzle: address, nonce and KZG
commitment. -/
structure SolutionPart (Addr Comm : Type) where
  address : Addr
  nonce : ℕ
  commitment : Comm
deriving DecidableEq

/-- A prover solution: a partial solution with its KZG opening proof. -/
structure ProverSolution (Addr Comm Pf : Type) where
  part : SolutionPart Addr Comm
  proof : Pf
deriving DecidableEq

/-- A coinbase solution: accumulated partial solutions with one aggregated
KZG proof. -/
structure CoinbaseSolution (Addr Comm Pf : Type) where
  parts : List (SolutionPart Addr Comm)
  proof : Pf

/-- The coinbase puzzle is either a prover (holding the proving key) or a
verifier (holding only the verifying key); the mode is fixed at
construction. -/
inductive CoinbasePuzzle (PK VK : Type) where
  | prover (pk : PK)
  | verifier (vk : VK)

/-- The has_duplicates helper over a list with decidable equality. -/
def hasDup {β : Type} [DecidableEq β] (l : List β) : Bool :=
  ! decide l.Nodup

/-- Whether an Except computation rejected with an error. -/
def isErr {ε β : Type} : Except ε β → Bool
  | .error _ => true
  | .ok _ => false

/-- The opaque collaborators of the coinbase puzzle engine: the network
limit, KZG and polynomial operations, the Fiat-Shamir hashes, and the
commitment-to-target map. Fr is the scalar field of the pairing curve. -/
structure PuzzleOps (Addr Comm Pf EC Poly Evals Fr PK VK : Type) where
  maxProverSolutions : ℕ
  isHiding : Pf → Bool
  toTarget : Comm → ℕ
  cumulative : List (SolutionPart Addr Comm) → ℕ
  toProverPoly : SolutionPart Addr Comm → EC → Option Poly
  hashCommitments : List Comm → Option (List Fr)
  hashCommitment : Comm → Fr
  evalPoly : Poly → Fr → Fr
  epochPolyEval : EC → Fr → Fr
  epochPolyEvals : EC → Evals
  polyZero : Poly
  polyAdd : Poly → Poly → Poly
  polySmul : Fr → Poly → Poly
  fft : PK → Poly → Evals
  mulEvals : PK → Evals → Evals → Evals
  commitLagrange : PK → Evals → Option Comm
  openLagrange : PK → Evals → Fr → Fr → Option Pf
  msm : List Comm → List Fr → Comm
  kzgCheck : VK → Comm → Fr → Fr → Pf → Bool
  vkOf : PK → VK
  proverPolynomial : EC → Addr → ℕ → Poly

section PuzzleDefs

variable {Addr Comm Pf EC Poly Evals Fr PK VK : Type}
variable [CommRing Fr] [DecidableEq Addr] [DecidableEq Comm] [DecidableEq Pf]

/-- CoinbasePuzzle::prove: derives the prover polynomial from the epoch
challenge, address and nonce, multiplies it against the epoch polynomial
in the evaluation domain, commits, enforces the minimum proof target when
one is given, opens the product at the Fiat-Shamir point derived from the
commitment, and requires the opening to be non-hiding. -/
def puzzleProve (ops : PuzzleOps Addr Comm Pf EC Poly Evals Fr PK VK)
    (puzzle : CoinbasePuzzle PK VK) (ec : EC) (address : Addr) (nonce : ℕ)
    (minTarget : Option ℕ) : Except String (ProverSolution Addr Comm Pf) :=
  match puzzle with
  | .verifier _ => Except.error "Cannot prove the coinbase puzzle with a verifier"
  | .prover pk =>
    let poly := ops.proverPolynomial ec address nonce
    let productEvals := ops.mulEvals pk (ops.fft pk poly) (ops.epochPolyEvals ec)
    match ops.commitLagrange pk productEvals with
    | none => Except.error "Failed to commit to the product evaluations"
    | some commitment =>
      if (match minTarget with
          | some minT => decide (ops.toTarget commitment < minT)
          | none => false) then
        Except.error "Prover solution was below the necessary proof target"
      else
        let pt := ops.hashCommitment commitment
        let evalAt := ops.evalPoly poly pt * ops.epochPolyEval ec pt
        match ops.openLagrange pk productEvals pt evalAt with
        | none => Except.error "Failed to open the product evaluations"
        | some proof =>
          if ops.isHiding proof then
            Except.error "The prover solution must contain a non-hiding proof"
          else Except.ok ⟨⟨address, nonce, commitment⟩, proof⟩

/-- CoinbasePuzzle::accumulate_unchecked: rejects an empty list, an
over-limit list, the verifier mode, and duplicate solutions; silently
drops every hiding solution (and every solution whose prover polynomial
cannot be recovered) through filter_map; derives the Fiat-Shamir
challenges from the remaining commitments, folds the weighted prover
polynomials, and opens the accumulated product at the accumulator point. -/
def accumulate (ops : PuzzleOps Addr Comm Pf EC Poly Evals Fr PK VK)
    (puzzle : CoinbasePuzzle PK VK) (ec : EC)
    (solutions : List (ProverSolution Addr Comm Pf)) :
    Except String (CoinbaseSolution Addr Comm Pf) :=
  if solutions.isEmpty then
    Except.error "Cannot accumulate an empty list of prover solutions."
  else if solutions.length > ops.maxProverSolutions then
    Except.error "Cannot accumulate beyond the maximum prover solutions."
  else
    match puzzle with
    | .verifier _ => Except.error "Cannot accumulate the coinbase puzzle with a verifier"
    | .prover pk =>
      if hasDup solutions then Except.error "Cannot accumulate duplicate prover solutions"
      else
        let pairs := solutions.filterMap (fun s =>
          if ops.isHiding s.proof then none
          else (ops.toProverPoly s.part ec).map (fun poly => (poly, s.part)))
        let polys := pairs.map Prod.fst
        let parts := pairs.map Prod.snd
        match ops.hashCommitments (parts.map (fun p => p.commitment)) with
        | none => Except.error "Failed to hash the commitments"
        | some challenges =>
          if challenges.length ≠ parts.length + 1 then
            Except.error "Invalid number of challenge points"
          else
            match challenges.getLast? with
            | none => Except.error "Missing the accumulator challenge point"
            | some accPoint =>
              let weights := challenges.dropLast
              let accPoly := (polys.zip weights).foldl
                (fun acc pw => ops.polyAdd acc (ops.polySmul pw.2 pw.1)) ops.polyZero
              let evalAt := ops.evalPoly accPoly accPoint * ops.epochPolyEval ec accPoint
              let productEvals := ops.mulEvals pk (ops.fft pk accPoly) (ops.epochPolyEvals ec)
              match ops.openLagrange pk productEvals accPoint evalAt with
              | none => Except.error "Failed to open the accumulated evaluations"
              | some proof =>
                if ops.isHiding proof then
                  Except.error "The coinbase proof must be non-hiding"
                else Except.ok ⟨parts, proof⟩

/-- The per-solution pass of CoinbasePuzzle::verify: every partial
solution must meet the proof target, and failure aborts the whole map
rather than being dropped. -/
def collectPolys (ops : PuzzleOps Addr Comm Pf EC Poly Evals Fr PK VK)
    (ec : EC) (proofTarget : ℕ) :
    List (SolutionPart Addr Comm) → Except String (List Poly)
  | [] => Except.ok []
  | s :: rest =>
    if ops.toTarget s.commitment ≥ proofTarget then
      match ops.toProverPoly s ec with
      | some p =>
        match collectPolys ops ec proofTarget rest with
        | .ok ps => Except.ok (p :: ps)
        | .error e => Except.error e
      | none => Except.error "Failed to recover the prover polynomial"
    else Except.error "Prover puzzle does not meet the proof target requirements."

/-- CoinbasePuzzle::verify: rejects an empty solution, an over-limit
solution, a hiding proof, a cumulative-target shortfall, duplicate puzzle
commitments, and any partial solution below the proof target; then
recomputes the Fiat-Shamir challenges, the accumulator evaluation and the
accumulator commitment, and checks the KZG opening. -/
def puzzleVerify (ops : PuzzleOps Addr Comm Pf EC Poly Evals Fr PK VK)
    (puzzle : CoinbasePuzzle PK VK) (sol : CoinbaseSolution Addr Comm Pf)
    (ec : EC) (coinbaseTarget proofTarget : ℕ) : Except String Bool :=
  if sol.parts.isEmpty then
    Except.error "The coinbase solution does not contain any partial solutions"
  else if sol.parts.length > ops.maxProverSolutions then
    Except.error "The coinbase solution exceeds the allowed number of partial solutions."
  else if ops.isHiding sol.proof then
    Except.error "The coinbase proof must be non-hiding"
  else if ops.cumulative sol.parts < coinbaseTarget then
    Except.error "The coinbase proof does not meet the coinbase target"
  else if hasDup (sol.parts.map (fun s => s.commitment)) then
    Except.error "The coinbase solution contains duplicate puzzle commitments"
  else do
    let polys ← collectPolys ops ec proofTarget sol.parts
    match ops.hashCommitments (sol.parts.map (fun s => s.commitment)) with
    | none => Except.error "Failed to hash the commitments"
    | some challengePoints =>
      if challengePoints.length ≠ sol.parts.length + 1 then
        Except.error "Invalid number of challenge points"
      else
        match challengePoints.getLast? with
        | none => Except.error "Missing the accumulator challenge point"
        | some accPoint =>
          let weights := challengePoints.dropLast
          let accEval0 := (polys.zip weights).foldl
            (fun acc pc => acc + ops.evalPoly pc.1 accPoint * pc.2) 0
          let accEval := accEval0 * ops.epochPolyEval ec accPoint
          let accComm := ops.msm (sol.parts.map (fun s => s.commitment)) weights
          let vk := (match puzzle with
                     | .prover pk => ops.vkOf pk
                     | .verifier vk => vk)
          Except.ok (ops.kzgCheck vk accComm accPoint accEval sol.proof)

end PuzzleDefs

/-- An abstract evaluation domain, known only through its size. -/
structure PuzzleDomainOps (ED : Type) where
  newDomain : ℕ → Option ED
  domainSize : ED → ℕ

/-- CoinbasePuzzle::product_domain: rejects degree 0; computes the number
of coefficients of the product of two degree-n polynomials with u32
checked arithmetic, failing on overflow; builds the evaluation domain; and
carries the source assertions that the coefficient count is 2n + 1 and the
domain size is its next power of two. -/
def productDomain {ED : Type} (ops : PuzzleDomainOps ED) (degree : ℕ) :
    Except String ED :=
  if degree = 0 then Except.error "Degree cannot be zero"
  else if degree + 1 ≥ 2 ^ 32 then Except.error "Degree is too large"
  else
    let numCoefficients := degree + 1
    if numCoefficients * 2 ≥ 2 ^ 32 then Except.error "Degree is too large"
    else
      let productNumCoefficients := numCoefficients * 2 - 1
      if productNumCoefficients ≠ 2 * degree + 1 then
        Except.error "Assertion failed on the product coefficient count"
      else
        match ops.newDomain productNumCoefficients with
        | none => Except.error "Invalid degree"
        | some d =>
          if ops.domainSize d ≠ Nat.nextPowerOfTwo productNumCoefficients then
            Except.error "Assertion failed on the domain size"
          else Except.ok d

end CoinbasePuzzleModel

section ConcreteInstances

/-- A concrete one-byte codec over naturals, used to instantiate the
opaque component codecs in witnesses. -/
def natCodec : Codec ℕ :=
  ⟨fun n => [n], fun bs => match bs with
    | n :: r => some (n, r)
    | [] => none⟩

/-- A concrete transition codec bundle over naturals. -/
def natCodecs : TransitionCodecs ℕ ℕ ℕ ℕ ℕ ℕ ℕ ℕ ℕ :=
  ⟨natCodec, natCodec, natCodec, natCodec, natCodec, natCodec, natCodec, natCodec, natCodec,
   fun ins outs => ins.sum + outs.sum⟩

/-- A concrete network environment: field elements are naturals, scalars
and group elements live in ZMod 5 (a module over itself), and every
opaque primitive is a simple arithmetic function. -/
def natNetwork : Network ℕ (ZMod 5) (ZMod 5) ℕ ℕ ℕ ℕ ℕ ℕ where
  netId := 3
  hashPsd2 := fun l => l.sum + 1
  hashPsd4 := fun l => l.sum + 2
  hashPsd8 := fun l => l.sum + 3
  hashBhp1024 := fun l => l.length
  hashToScalarPsd2 := fun l => (l.sum : ZMod 5)
  hashToScalarPsd4 := fun l => (l.sum : ZMod 5) + 1
  hashToScalarPsd8 := fun l => (l.sum : ZMod 5) + 2
  hashToGroupPsd2 := fun l => (l.sum : ZMod 5)
  gBase := 1
  xCoord := fun g => g.val
  snDomain := 7
  scalarToField := fun s => s.val
  fnTupleBits := fun n _ _ => List.replicate n true
  fieldOfU16 := fun n => n
  fieldOfU64 := fun n => n
  plainToFields := fun p => [p]
  recToFields := fun r => [r.gates, r.payload]
  cipherToFields := fun c => [c]
  encryptSym := fun p k => p + k
  recCommit := fun r _ name => r.gates + r.payload + name
  snFromGamma := fun g f => g.val + f
  tagOf := fun t f => t + f + 1
  toAddr := fun a b => a + b
  skTagOf := fun a b => a.val + b.val
  encryptRecord := fun r s => r.gates + s.val
  rcToBits := fun n => List.replicate n true
  outVerify := fun _ _ _ _ => true

/-- A concrete puzzle environment: commitments are naturals, proofs are
booleans (a true proof is a hiding proof), scalars live in ZMod 5. -/
def natPuzzleOps : PuzzleOps ℕ ℕ Bool ℕ ℕ ℕ (ZMod 5) ℕ ℕ where
  maxProverSolutions := 4
  isHiding := fun pf => pf
  toTarget := fun c => c
  cumulative := fun l => (l.map (fun p => p.commitment)).sum
  toProverPoly := fun p _ => some p.commitment
  hashCommitments := fun l => some (List.replicate (l.length + 1) 0)
  hashCommitment := fun c => (c : ZMod 5)
  evalPoly := fun p f => (p : ZMod 5) * f
  epochPolyEval := fun e f => (e : ZMod 5) + f
  epochPolyEvals := fun e => e
  polyZero := 0
  polyAdd := fun a b => a + b
  polySmul := fun _ p => p
  fft := fun _ p => p
  mulEvals := fun _ a b => a + b
  commitLagrange := fun _ e => some e
  openLagrange := fun _ _ _ _ => some false
  msm := fun cs _ => cs.sum
  kzgCheck := fun _ _ _ _ _ => true
  vkOf := fun pk => pk
  proverPolynomial := fun e a n => e + a + n

/-- A concrete evaluation-domain factory whose domains are their sizes. -/
def natDomainOps : PuzzleDomainOps ℕ :=
  ⟨fun n => some (Nat.nextPowerOfTwo n), fun d => d⟩

end ConcreteInstances

section ProtocolTheorems

variable {F S G P C RC D PID IDENT : Type}
variable [CommRing S] [AddCommGroup G] [Module S G]
variable [DecidableEq F] [DecidableEq S] [DecidableEq G]

theorem challenge_response_smul (skSig r challenge : S) (h : G) :
    verifierHR challenge (r - challenge * skSig) (skSig • h) h = r • h := by
  unfold verifierHR
  rw [smul_smul, sub_smul]
  abel

/-- Claim C2: for every record input, the verifier reconstruction
h_r = challenge * gamma + response * H equals the signer value r * H
whenever gamma = sk_sig * H and response = r - challenge * sk_sig;
consequently the verifier transcript contribution (H.x, h_r.x, gamma.x,
tag) equals the signer contribution without the verifier knowing r. -/
theorem verifier_reconstructs_record_transcript
    (nw : Network F S G P C RC D PID IDENT)
    (skSig r challenge response : S) (h gamma : G) (tag : F)
    (hgamma : gamma = skSig • h) (hresp : response = r - challenge * skSig) :
    verifierHR challenge response gamma h = r • h ∧
    recordMsg nw h (verifierHR challenge response gamma h) gamma tag
      = recordMsg nw h (r • h) gamma tag := by
  subst hgamma hresp
  refine ⟨challenge_response_smul skSig r challenge h, ?_⟩
  rw [challenge_response_smul]

theorem verifier_reconstructs_record_transcript_app :
    verifierHR (1 : ZMod 5) ((3 : ZMod 5) - 1 * 2) ((2 : ZMod 5) • (1 : ZMod 5)) 1
      = (3 : ZMod 5) • (1 : ZMod 5) ∧
    recordMsg natNetwork 1
      (verifierHR (1 : ZMod 5) ((3 : ZMod 5) - 1 * 2) ((2 : ZMod 5) • (1 : ZMod 5)) 1)
      ((2 : ZMod 5) • (1 : ZMod 5)) 0
      = recordMsg natNetwork 1 ((3 : ZMod 5) • (1 : ZMod 5)) ((2 : ZMod 5) • (1 : ZMod 5)) 0 :=
  verifier_reconstructs_record_transcript natNetwork 2 3 1 ((3 : ZMod 5) - 1 * 2)
    1 ((2 : ZMod 5) • (1 : ZMod 5)) 0 rfl rfl

/-- Claim C5: in Transition::from, the encryption randomizer of a record
output is HashToScalar_psd2(tvk, Field(locator)) from the output register
locator, while a private output (like the constant, public and external
record hashes) uses the sequential index num_inputs + index as the
field-element index; the record branch is invariant in the sequential
index and the private branch is invariant in the register, so the two
derivations are distinct. -/
theorem output_randomizer_asymmetry
    (nw : Network F S G P C RC D PID IDENT)
    (functionId tvk tcm : F) (pid : PID) (numInputs : ℕ) :
    (∀ (idx : ℕ) (cm ck : F) (r0 : Rec G D) (rname : IDENT) (reg : Register)
       (out : Output F P C RC),
       processOutput nw functionId tvk tcm pid numInputs idx (.record cm ck)
         (.record r0) (.record rname) reg = Except.ok out →
       out = Output.record cm ck
         (some (nw.encryptRecord r0 (nw.hashToScalarPsd2 [tvk, nw.fieldOfU64 reg.locator]))))
    ∧ (∀ (idx : ℕ) (oh : F) (p : P) (oty : ValueType IDENT) (reg : Register)
         (out : Output F P C RC),
         numInputs + idx < 65536 →
         processOutput nw functionId tvk tcm pid numInputs idx (.priv oh)
           (.plaintext p) oty reg = Except.ok out →
         out = Output.priv oh
           (some (nw.encryptSym p (nw.hashPsd4 [functionId, tvk, nw.fieldOfU16 (numInputs + idx)]))))
    ∧ (∀ (idx1 idx2 : ℕ) (cm ck : F) (v : Value G D P) (oty : ValueType IDENT) (reg : Register),
         processOutput nw functionId tvk tcm pid numInputs idx1 (.record cm ck) v oty reg
           = processOutput nw functionId tvk tcm pid numInputs idx2 (.record cm ck) v oty reg)
    ∧ (∀ (idx : ℕ) (oh : F) (v : Value G D P) (oty : ValueType IDENT) (reg1 reg2 : Register),
         processOutput nw functionId tvk tcm pid numInputs idx (.priv oh) v oty reg1
           = processOutput nw functionId tvk tcm pid numInputs idx (.priv oh) v oty reg2) := by
  refine ⟨?_, ?_, ?_, ?_⟩
  · intro idx cm ck r0 rname reg out hok
    simp only [processOutput] at hok
    split_ifs at hok with h1 h2
    simp only [Except.ok.injEq] at hok
    exact hok.symm
  · intro idx oh p oty reg out hlt hok
    simp only [processOutput] at hok
    rw [Nat.mod_eq_of_lt hlt] at hok
    split_ifs at hok with h1
    simp only [Except.ok.injEq] at hok
    exact hok.symm
  · intro idx1 idx2 cm ck v oty reg
    cases v <;> rfl
  · intro idx oh v oty reg1 reg2
    cases v <;> rfl

theorem output_randomizer_asymmetry_app :
    processOutput natNetwork 0 0 0 0 0 0 (OutputID.record 5 2) (Value.record ⟨0, 2, 3⟩)
      (ValueType.record 0) ⟨0⟩ = Except.ok (Output.record 5 2 (some 2))
    ∧ (Output.record 5 2 (some 2) : Output ℕ ℕ ℕ ℕ) = Output.record 5 2
        (some (natNetwork.encryptRecord ⟨0, 2, 3⟩
          (natNetwork.hashToScalarPsd2 [0, natNetwork.fieldOfU64 0]))) :=
  ⟨rfl, (output_randomizer_asymmetry natNetwork 0 0 0 0 0).1 0 5 2 ⟨0, 2, 3⟩ 0 ⟨0⟩
    (Output.record 5 2 (some 2)) rfl⟩

end ProtocolTheorems

section DomainTheorems

/-- Claim C8: for every nonzero degree for which the u32 checked
arithmetic does not overflow, product_domain returns an evaluation domain
whose size is next_power_of_two(2n + 1); it fails for degree 0 and on
arithmetic overflow of 2(n + 1) - 1. -/
theorem product_domain_size {ED : Type} (ops : PuzzleDomainOps ED) (degree : ℕ)
    (hdeg : degree < 2 ^ 32) :
    (degree = 0 → isErr (productDomain ops degree) = true)
    ∧ (2 ^ 31 - 1 ≤ degree → isErr (productDomain ops degree) = true)
    ∧ (∀ d, productDomain ops degree = Except.ok d →
        ops.domainSize d = Nat.nextPowerOfTwo (2 * degree + 1))
    ∧ (degree ≠ 0 → degree < 2 ^ 31 - 1 →
        ∀ d, ops.newDomain (2 * degree + 1) = some d →
        ops.domainSize d = Nat.nextPowerOfTwo (2 * degree + 1) →
        productDomain ops degree = Except.ok d) := by
  refine ⟨?_, ?_, ?_, ?_⟩
  · intro h0
    subst h0
    simp [productDomain, isErr]
  · intro hge
    have hge2 : 2147483647 ≤ degree := by norm_num at hge; exact hge
    simp only [productDomain]
    split_ifs with h1 h2 h3 h4
    · rfl
    · rfl
    · rfl
    · rfl
    · exfalso
      norm_num at h3
      omega
  · intro d hok
    simp only [productDomain] at hok
    have hpnc : (degree + 1) * 2 - 1 = 2 * degree + 1 := by omega
    rw [hpnc] at hok
    split_ifs at hok with h1 h2 h3 h4
    all_goals try exact Except.noConfusion hok
    all_goals revert hok
    all_goals cases hnd : ops.newDomain (2 * degree + 1) with
      | none => intro hok; exact Except.noConfusion hok
      | some d0 =>
        intro hok
        have hok2 : (if ops.domainSize d0 ≠ (2 * degree + 1).nextPowerOfTwo then
            (Except.error "Assertion failed on the domain size" : Except String ED)
          else Except.ok d0) = Except.ok d := hok
        split_ifs at hok2 with h5
        all_goals try exact Except.noConfusion hok2
        all_goals simp only [Except.ok.injEq] at hok2
        all_goals subst hok2
        all_goals omega
  · intro h0 h31 d hnew hsz
    have hpnc : (degree + 1) * 2 - 1 = 2 * degree + 1 := by omega
    simp only [productDomain, hpnc, hnew]
    rw [if_neg h0, if_neg (by omega), if_neg (by omega), if_neg (by omega), if_neg (by simp [hsz])]

theorem product_domain_size_app :
    (0 : ℕ) < 2 ^ 32 ∧ isErr (productDomain natDomainOps 0) = true :=
  ⟨by decide, (product_domain_size natDomainOps 0 (by decide)).1 rfl⟩

end DomainTheorems

section ByteTheorems

theorem readU16_u16Bytes (n : ℕ) (rest : List ℕ) :
    readU16 (u16Bytes n ++ rest) = some (n % 65536, rest) := by
  simp only [u16Bytes, readU16, List.cons_append, List.nil_append]
  have harith : n % 256 % 256 + 256 * (n / 256 % 256 % 256) = n % 65536 := by omega
  rw [harith]

theorem readU16_u16Bytes_small {n : ℕ} (h : n < 65536) (rest : List ℕ) :
    readU16 (u16Bytes n ++ rest) = some (n, rest) := by
  rw [readU16_u16Bytes, Nat.mod_eq_of_lt h]

theorem readCount_flatten {β : Type} {c : Codec β} (hc : c.Lawful) :
    ∀ (l : List β) (rest : List ℕ),
      readCount c l.length ((l.map c.ser).flatten ++ rest) = some (l, rest) := by
  intro l
  induction l with
  | nil => intro rest; simp [readCount]
  | cons x xs ih =>
    intro rest
    have hc2 : ∀ y r, c.deser (c.ser y ++ r) = some (y, r) := hc
    simp only [List.map_cons, List.flatten_cons, List.length_cons, List.append_assoc]
    simp [readCount, hc2, ih]

theorem readNatLE_natLE : ∀ (k n : ℕ) (rest : List ℕ),
    readNatLE k (natLE k n ++ rest) = some (n % 256 ^ k, rest) := by
  intro k
  induction k with
  | zero => intro n rest; simp [natLE, readNatLE, Nat.mod_one]
  | succ k ih =>
    intro n rest
    have harith : n % 256 + 256 * (n / 256 % 256 ^ k) = n % 256 ^ (k + 1) := by
      rw [pow_succ', Nat.mod_mul]
    simp [natLE, readNatLE, ih, harith]

theorem readI64_i64Bytes (z : ℤ) (rest : List ℕ) (hlo : -(2 ^ 63) ≤ z) (hhi : z < 2 ^ 63) :
    readI64 (i64Bytes z ++ rest) = some (z, rest) := by
  have h0 : (0 : ℤ) ≤ z % 2 ^ 64 := Int.emod_nonneg z (by norm_num)
  have h1 : z % 2 ^ 64 < 2 ^ 64 := Int.emod_lt_of_pos z (by norm_num)
  simp only [i64Bytes, readI64]
  rw [readNatLE_natLE]
  have h2 : (z % 2 ^ 64).toNat % 256 ^ 8 = (z % 2 ^ 64).toNat := by
    apply Nat.mod_eq_of_lt
    have h256 : (256 : ℕ) ^ 8 = 2 ^ 64 := by norm_num
    rw [h256]
    omega
  rw [h2]
  have h3 : (if (z % 2 ^ 64).toNat < 2 ^ 63 then ((z % 2 ^ 64).toNat : ℤ)
      else ((z % 2 ^ 64).toNat : ℤ) - 2 ^ 64) = z := by
    split_ifs with hc
    · omega
    · omega
  show some (if (z % 2 ^ 64).toNat < 2 ^ 63 then ((z % 2 ^ 64).toNat : ℤ)
      else ((z % 2 ^ 64).toNat : ℤ) - 2 ^ 64, rest) = some (z, rest)
  rw [h3]

theorem readOpt_optBytes {β : Type} {c : Codec β} (hc : c.Lawful) (o : Option β) (rest : List ℕ) :
    readOpt c (optBytes c o ++ rest) = some (o, rest) := by
  cases o with
  | none => simp [optBytes, boolBytes, readOpt, readBool]
  | some x => simp [optBytes, boolBytes, readOpt, readBool, hc]

/-- Claim C9: for each of the five transition output kinds, with or
without an attached value, decoding the byte encoding yields the original
output; and decoding fails for any buffer whose variant tag is 5 or
greater. -/
theorem output_bytes_roundtrip {F P C RC : Type} (fc : Codec F) (pc : Codec P)
    (cc : Codec C) (rcc : Codec RC)
    (hf : fc.Lawful) (hp : pc.Lawful) (hc : cc.Lawful) (hr : rcc.Lawful) :
    (∀ (out : Output F P C RC) (rest : List ℕ),
       outputFromBytes fc pc cc rcc (outputToBytes fc pc cc rcc out ++ rest)
         = some (out, rest))
    ∧ (∀ (v : ℕ) (bs : List ℕ), 5 ≤ v → outputFromBytes fc pc cc rcc (v :: bs) = none) := by
  constructor
  · intro out rest
    cases out with
    | constant h p =>
      simp [outputToBytes, outputFromBytes, List.cons_append, List.append_assoc, hf,
        readOpt_optBytes hp]
    | public h p =>
      simp [outputToBytes, outputFromBytes, List.cons_append, List.append_assoc, hf,
        readOpt_optBytes hp]
    | priv h c =>
      simp [outputToBytes, outputFromBytes, List.cons_append, List.append_assoc, hf,
        readOpt_optBytes hc]
    | record cm ck rc =>
      simp [outputToBytes, outputFromBytes, List.cons_append, List.append_assoc, hf,
        readOpt_optBytes hr]
    | external cm =>
      simp [outputToBytes, outputFromBytes, List.cons_append, List.append_assoc, hf]
  · intro v bs hv
    obtain ⟨n, rfl⟩ : ∃ n, v = n + 5 := ⟨v - 5, by omega⟩
    rfl

theorem except_ok_bind {ε α β : Type} (a : α) (f : α → Except ε β) :
    (Except.ok a : Except ε α) >>= f = f a := rfl

theorem except_error_bind {ε α β : Type} (e : ε) (f : α → Except ε β) :
    (Except.error e : Except ε α) >>= f = Except.error e := rfl

theorem orFail_some {β : Type} (b : β) : orFail (some b) = Except.ok b := rfl

theorem transition_decode_encode
    {TID PID2 FN INP OUTP VAL PRF TPK TCM : Type} [DecidableEq TID]
    (cs : TransitionCodecs TID PID2 FN INP OUTP VAL PRF TPK TCM)
    (htid : cs.tid.Lawful) (hpid : cs.pid.Lawful) (hfn : cs.fname.Lawful)
    (hinp : cs.inp.Lawful) (houtp : cs.outp.Lawful) (hval : cs.val.Lawful)
    (hprf : cs.prf.Lawful) (htpk : cs.tpk.Lawful) (htcm : cs.tcm.Lawful)
    (t : Transition TID PID2 FN INP OUTP VAL PRF TPK TCM)
    (hin : t.inputs.length < 65536) (hout : t.outputs.length < 65536)
    (hfin : ∀ fs, t.finalize = some fs → fs.length < 65536)
    (hfee1 : -(2 ^ 63) ≤ t.fee) (hfee2 : t.fee < 2 ^ 63) :
    transitionFromBytes cs (transitionToBytes cs t) =
      if t.id = cs.root t.inputs t.outputs
      then Except.ok ⟨cs.root t.inputs t.outputs, t.programId, t.functionName, t.inputs,
        t.outputs, t.finalize, t.proof, t.tpk, t.tcm, t.fee⟩
      else Except.error "Transition ID is incorrect, possible data corruption" := by
  obtain ⟨tid, pid2, fn, ins, outs, fin, prf, tpk, tcm, fee⟩ := t
  simp only at hin hout hfin hfee1 hfee2 ⊢
  have hfee : readI64 (i64Bytes fee) = some (fee, []) := by
    have hx := readI64_i64Bytes fee [] hfee1 hfee2
    simpa using hx
  cases fin with
  | none =>
    simp [transitionToBytes, transitionFromBytes, List.append_assoc, List.cons_append,
      readU16_u16Bytes_small hin, readU16_u16Bytes_small hout, readU16_u16Bytes,
      readCount_flatten hinp, readCount_flatten houtp, htid, hpid, hfn, hprf, htpk, htcm,
      orFail_some, except_ok_bind, readU8, hfee, orFail]
  | some fs =>
    have hfs : fs.length < 65536 := hfin fs rfl
    simp [transitionToBytes, transitionFromBytes, List.append_assoc, List.cons_append,
      readU16_u16Bytes_small hin, readU16_u16Bytes_small hout, readU16_u16Bytes_small hfs,
      readU16_u16Bytes, readCount_flatten hinp, readCount_flatten houtp,
      readCount_flatten hval, htid, hpid, hfn, hprf, htpk, htcm,
      orFail_some, except_ok_bind, readU8, hfee, orFail]

/-- Claim C7: for every transition whose stored identifier equals the
function-tree root of its inputs and outputs, decoding its byte encoding
yields the transition back; decoding fails for any buffer whose leading
u16 version word is nonzero, and for any encoding whose stored transition
ID differs from the root recomputed from the decoded inputs and outputs. -/
theorem transition_bytes_roundtrip
    {TID PID2 FN INP OUTP VAL PRF TPK TCM : Type} [DecidableEq TID]
    (cs : TransitionCodecs TID PID2 FN INP OUTP VAL PRF TPK TCM)
    (htid : cs.tid.Lawful) (hpid : cs.pid.Lawful) (hfn : cs.fname.Lawful)
    (hinp : cs.inp.Lawful) (houtp : cs.outp.Lawful) (hval : cs.val.Lawful)
    (hprf : cs.prf.Lawful) (htpk : cs.tpk.Lawful) (htcm : cs.tcm.Lawful)
    (t : Transition TID PID2 FN INP OUTP VAL PRF TPK TCM)
    (hin : t.inputs.length < 65536) (hout : t.outputs.length < 65536)
    (hfin : ∀ fs, t.finalize = some fs → fs.length < 65536)
    (hfee1 : -(2 ^ 63) ≤ t.fee) (hfee2 : t.fee < 2 ^ 63) :
    (t.id = cs.root t.inputs t.outputs →
       transitionFromBytes cs (transitionToBytes cs t) = Except.ok t)
    ∧ (∀ b0 b1 bs, b0 % 256 + 256 * (b1 % 256) ≠ 0 →
       transitionFromBytes cs (b0 :: b1 :: bs) = Except.error "Invalid transition version")
    ∧ (t.id ≠ cs.root t.inputs t.outputs →
       transitionFromBytes cs (transitionToBytes cs t) =
         Except.error "Transition ID is incorrect, possible data corruption") := by
  refine ⟨?_, ?_, ?_⟩
  · intro hid
    rw [transition_decode_encode cs htid hpid hfn hinp houtp hval hprf htpk htcm t
      hin hout hfin hfee1 hfee2, if_pos hid, ← hid]
  · intro b0 b1 bs hne
    simp only [transitionFromBytes, readU16, orFail, except_ok_bind]
    rw [if_pos hne]
  · intro hid
    rw [transition_decode_encode cs htid hpid hfn hinp houtp hval hprf htpk htcm t
      hin hout hfin hfee1 hfee2, if_neg hid]

theorem transition_bytes_roundtrip_app :
    transitionFromBytes natCodecs
      (transitionToBytes natCodecs
        (⟨7, 1, 2, [3], [4], some [5], 6, 7, 8, (9 : ℤ)⟩ : Transition ℕ ℕ ℕ ℕ ℕ ℕ ℕ ℕ ℕ))
      = Except.ok (⟨7, 1, 2, [3], [4], some [5], 6, 7, 8, (9 : ℤ)⟩ : Transition ℕ ℕ ℕ ℕ ℕ ℕ ℕ ℕ ℕ) :=
  (transition_bytes_roundtrip natCodecs
    (fun _ _ => rfl) (fun _ _ => rfl) (fun _ _ => rfl) (fun _ _ => rfl) (fun _ _ => rfl)
    (fun _ _ => rfl) (fun _ _ => rfl) (fun _ _ => rfl) (fun _ _ => rfl)
    ⟨7, 1, 2, [3], [4], some [5], 6, 7, 8, (9 : ℤ)⟩
    (by decide) (by decide)
    (by intro fs h; injection h with h2; subst h2; decide)
    (by decide) (by decide)).1 rfl

theorem output_bytes_roundtrip_app :
    outputFromBytes natCodec natCodec natCodec natCodec
      (outputToBytes natCodec natCodec natCodec natCodec
        (Output.record 7 8 (some 9) : Output ℕ ℕ ℕ ℕ) ++ [99])
      = some ((Output.record 7 8 (some 9) : Output ℕ ℕ ℕ ℕ), [99]) :=
  (output_bytes_roundtrip natCodec natCodec natCodec natCodec
    (fun _ _ => rfl) (fun _ _ => rfl) (fun _ _ => rfl) (fun _ _ => rfl)).1
    (Output.record 7 8 (some 9)) [99]

end ByteTheorems

section PuzzleTheorems

variable {Addr Comm Pf EC Poly Evals Fr PK VK : Type}
variable [CommRing Fr] [DecidableEq Addr] [DecidableEq Comm] [DecidableEq Pf]

theorem collectPolys_err (ops : PuzzleOps Addr Comm Pf EC Poly Evals Fr PK VK)
    (ec : EC) (pt : ℕ) :
    ∀ l : List (SolutionPart Addr Comm),
      (∃ s ∈ l, ops.toTarget s.commitment < pt) →
      isErr (collectPolys ops ec pt l) = true := by
  intro l
  induction l with
  | nil => rintro ⟨x, hx, hlt⟩; simp at hx
  | cons s rest ih =>
    rintro ⟨x, hx, hlt⟩
    simp only [collectPolys]
    by_cases hge : ops.toTarget s.commitment ≥ pt
    · rw [if_pos hge]
      rcases List.mem_cons.mp hx with hxe | hxm
      · subst hxe; omega
      · cases hp : ops.toProverPoly s ec with
        | none => rfl
        | some p =>
          have hrest := ih ⟨x, hxm, hlt⟩
          cases hc : collectPolys ops ec pt rest with
          | ok ps => rw [hc] at hrest; exact absurd hrest (by simp [isErr])
          | error e => simp [hc, isErr]
    · rw [if_neg hge]
      rfl

/-- Claim C3: CoinbasePuzzle::verify rejects (returns an error) when the
coinbase solution is empty, when it has more than MAX_PROVER_SOLUTIONS
partial solutions, when its proof is hiding, when the cumulative proof
target is below the coinbase target, when two partial solutions share a
puzzle commitment, and when any single partial solution is below the
proof target; the last condition aborts the whole verification rather
than being dropped. -/
theorem coinbase_verify_rejections (ops : PuzzleOps Addr Comm Pf EC Poly Evals Fr PK VK)
    (puzzle : CoinbasePuzzle PK VK) (sol : CoinbaseSolution Addr Comm Pf)
    (ec : EC) (ct pt : ℕ) :
    (sol.parts = [] → isErr (puzzleVerify ops puzzle sol ec ct pt) = true)
    ∧ (sol.parts.length > ops.maxProverSolutions →
        isErr (puzzleVerify ops puzzle sol ec ct pt) = true)
    ∧ (ops.isHiding sol.proof = true → isErr (puzzleVerify ops puzzle sol ec ct pt) = true)
    ∧ (ops.cumulative sol.parts < ct → isErr (puzzleVerify ops puzzle sol ec ct pt) = true)
    ∧ (¬ (sol.parts.map (fun s => s.commitment)).Nodup →
        isErr (puzzleVerify ops puzzle sol ec ct pt) = true)
    ∧ ((∃ s ∈ sol.parts, ops.toTarget s.commitment < pt) →
        isErr (puzzleVerify ops puzzle sol ec ct pt) = true) := by
  refine ⟨?_, ?_, ?_, ?_, ?_, ?_⟩
  · intro h
    simp [puzzleVerify, h, isErr]
  · intro h
    simp only [puzzleVerify]
    split_ifs <;> rfl
  · intro h
    simp only [puzzleVerify]
    split_ifs <;> rfl
  · intro h
    simp only [puzzleVerify]
    split_ifs <;> rfl
  · intro h
    simp only [puzzleVerify]
    split_ifs with e1 e2 e3 e4 e5 <;> try rfl
    have e5n : (sol.parts.map (fun s => s.commitment)).Nodup := by
      simpa [hasDup] using e5
    exact absurd e5n h
  · intro h
    simp only [puzzleVerify]
    split_ifs with e1 e2 e3 e4 e5 <;> try rfl
    have hcp := collectPolys_err ops ec pt sol.parts h
    cases hc : collectPolys ops ec pt sol.parts with
    | ok ps => rw [hc] at hcp; exact absurd hcp (by simp [isErr])
    | error e => simp [hc, except_error_bind, isErr]

theorem coinbase_verify_rejections_app :
    isErr (puzzleVerify natPuzzleOps (CoinbasePuzzle.prover (0 : ℕ))
      (⟨[], false⟩ : CoinbaseSolution ℕ ℕ Bool) (0 : ℕ) 0 0) = true :=
  (coinbase_verify_rejections natPuzzleOps (CoinbasePuzzle.prover 0) ⟨[], false⟩ 0 0 0).1 rfl

/-- Claim C6: CoinbasePuzzle::prove with a minimum proof target returns an
error whenever the target derived from the computed commitment is
strictly below the minimum, and otherwise (when the KZG operations
succeed with a non-hiding opening) returns a prover solution whose proof
is non-hiding; every returned solution carries a non-hiding proof. -/
theorem puzzle_prove_target_check (ops : PuzzleOps Addr Comm Pf EC Poly Evals Fr PK VK)
    (pk : PK) (ec : EC) (address : Addr) (nonce minT : ℕ) :
    (∀ c, ops.commitLagrange pk (ops.mulEvals pk (ops.fft pk
         (ops.proverPolynomial ec address nonce)) (ops.epochPolyEvals ec)) = some c →
       ops.toTarget c < minT →
       isErr (puzzleProve ops (.prover pk) ec address nonce (some minT)) = true)
    ∧ (∀ s, puzzleProve ops (.prover pk) ec address nonce (some minT) = Except.ok s →
        ops.isHiding s.proof = false)
    ∧ (∀ c pf, ops.commitLagrange pk (ops.mulEvals pk (ops.fft pk
         (ops.proverPolynomial ec address nonce)) (ops.epochPolyEvals ec)) = some c →
        minT ≤ ops.toTarget c →
        ops.openLagrange pk (ops.mulEvals pk (ops.fft pk
          (ops.proverPolynomial ec address nonce)) (ops.epochPolyEvals ec))
          (ops.hashCommitment c)
          (ops.evalPoly (ops.proverPolynomial ec address nonce) (ops.hashCommitment c) *
            ops.epochPolyEval ec (ops.hashCommitment c)) = some pf →
        ops.isHiding pf = false →
        puzzleProve ops (.prover pk) ec address nonce (some minT)
          = Except.ok ⟨⟨address, nonce, c⟩, pf⟩) := by
  refine ⟨?_, ?_, ?_⟩
  · intro c hc hlt
    simp [puzzleProve, hc, hlt, isErr]
  · intro s hok
    simp only [puzzleProve] at hok
    split at hok
    · exact Except.noConfusion hok
    · split_ifs at hok with h1
      split at hok
      · exact Except.noConfusion hok
      · split_ifs at hok with h2
        simp only [Except.ok.injEq] at hok
        subst hok
        simpa using h2
  · intro c pf hc ht hol hh
    have hnl : ¬(ops.toTarget c < minT) := not_lt.mpr ht
    simp [puzzleProve, hc, hnl, hol, hh]

theorem puzzle_prove_target_check_app :
    natPuzzleOps.toTarget 4 < 9 ∧
    isErr (puzzleProve natPuzzleOps (CoinbasePuzzle.prover (0 : ℕ)) (1 : ℕ) (1 : ℕ) 1
      (some 9)) = true :=
  ⟨by decide, (puzzle_prove_target_check natPuzzleOps 0 1 1 1 9).1 4 rfl (by decide)⟩

theorem accumulate_err_conditions (ops : PuzzleOps Addr Comm Pf EC Poly Evals Fr PK VK)
    (pk : PK) (ec : EC) (sols : List (ProverSolution Addr Comm Pf))
    (h : sols = [] ∨ sols.length > ops.maxProverSolutions ∨ ¬ sols.Nodup) :
    isErr (accumulate ops (.prover pk) ec sols) = true := by
  rcases h with h | h | h
  · subst h
    simp [accumulate, isErr]
  · simp only [accumulate]
    split_ifs <;> rfl
  · simp only [accumulate]
    split_ifs with e1 e2 e3 <;> try rfl
    have e3n : sols.Nodup := by simpa [hasDup] using e3
    exact absurd e3n h

theorem accumulate_filterMap_parts (ops : PuzzleOps Addr Comm Pf EC Poly Evals Fr PK VK)
    (ec : EC)
    (hPoly : ∀ p : SolutionPart Addr Comm, (ops.toProverPoly p ec).isSome = true) :
    ∀ sols : List (ProverSolution Addr Comm Pf),
      ((sols.filterMap (fun s =>
        if ops.isHiding s.proof then none
        else (ops.toProverPoly s.part ec).map (fun poly => (poly, s.part)))).map Prod.snd)
      = (sols.filter (fun s => !ops.isHiding s.proof)).map (fun s => s.part) := by
  intro sols
  induction sols with
  | nil => rfl
  | cons s rest ih =>
    by_cases hh : ops.isHiding s.proof
    · simp [List.filterMap_cons, List.filter_cons, hh, ih]
    · obtain ⟨p, hp⟩ := Option.isSome_iff_exists.mp (hPoly s.part)
      simp [List.filterMap_cons, List.filter_cons, hh, hp, ih]

theorem accumulate_ok_conditions (ops : PuzzleOps Addr Comm Pf EC Poly Evals Fr PK VK)
    (pk : PK) (ec : EC) (sols : List (ProverSolution Addr Comm Pf))
    (hHC : ∀ l, ∃ cs, ops.hashCommitments l = some cs ∧ cs.length = l.length + 1)
    (hOpen : ∀ pk2 evals x v, ∃ pf, ops.openLagrange pk2 evals x v = some pf ∧
      ops.isHiding pf = false)
    (h1 : sols ≠ []) (h2 : ¬ sols.length > ops.maxProverSolutions) (h3 : sols.Nodup) :
    isErr (accumulate ops (.prover pk) ec sols) = false := by
  simp only [accumulate]
  rw [if_neg (by simpa using h1), if_neg h2, if_neg (by simp [hasDup, h3])]
  obtain ⟨cs0, hcs, hlen⟩ := hHC _
  rw [hcs]
  have hne : cs0 ≠ [] := by
    intro hnil
    rw [hnil] at hlen
    simp at hlen
  obtain ⟨pt, hpt⟩ := Option.isSome_iff_exists.mp (List.getLast?_isSome.mpr hne)
  obtain ⟨pf, hpf, hpfh⟩ := hOpen pk (ops.mulEvals pk (ops.fft pk ((List.map Prod.fst
      (sols.filterMap fun s =>
        if ops.isHiding s.proof = true then none
        else Option.map (fun poly => (poly, s.part)) (ops.toProverPoly s.part ec))).zip
      cs0.dropLast |>.foldl (fun acc pw => ops.polyAdd acc (ops.polySmul pw.2 pw.1))
      ops.polyZero)) (ops.epochPolyEvals ec)) pt
    (ops.evalPoly ((List.map Prod.fst
      (sols.filterMap fun s =>
        if ops.isHiding s.proof = true then none
        else Option.map (fun poly => (poly, s.part)) (ops.toProverPoly s.part ec))).zip
      cs0.dropLast |>.foldl (fun acc pw => ops.polyAdd acc (ops.polySmul pw.2 pw.1))
      ops.polyZero) pt * ops.epochPolyEval ec pt)
  simp [hlen, hpt, hpf, hpfh, isErr]

theorem accumulate_ok_parts (ops : PuzzleOps Addr Comm Pf EC Poly Evals Fr PK VK)
    (pk : PK) (ec : EC) (sols : List (ProverSolution Addr Comm Pf))
    (hPoly : ∀ p : SolutionPart Addr Comm, (ops.toProverPoly p ec).isSome = true)
    (c : CoinbaseSolution Addr Comm Pf)
    (hok : accumulate ops (.prover pk) ec sols = Except.ok c) :
    c.parts = (sols.filter (fun s => !ops.isHiding s.proof)).map (fun s => s.part) := by
  simp only [accumulate] at hok
  split_ifs at hok with e1 e2 e3
  split at hok
  · exact Except.noConfusion hok
  · split_ifs at hok with e4
    split at hok
    · exact Except.noConfusion hok
    · split at hok
      · exact Except.noConfusion hok
      · split_ifs at hok with e5
        simp only [Except.ok.injEq] at hok
        subst hok
        exact accumulate_filterMap_parts ops ec hPoly sols

/-- Claim C10: accumulate_unchecked silently skips every hiding prover
solution (it is excluded from the resulting coinbase solution, whose
partial solutions and Fiat-Shamir challenges are derived only from the
remaining commitments) rather than returning an error for it; under
well-behaved collaborators only the empty input, an over-limit count,
duplicate solutions, or verifier mode produce errors. -/
theorem accumulate_skips_hiding (ops : PuzzleOps Addr Comm Pf EC Poly Evals Fr PK VK)
    (ec : EC) (sols : List (ProverSolution Addr Comm Pf))
    (hHC : ∀ l, ∃ cs, ops.hashCommitments l = some cs ∧ cs.length = l.length + 1)
    (hOpen : ∀ pk2 evals x v, ∃ pf, ops.openLagrange pk2 evals x v = some pf ∧
      ops.isHiding pf = false)
    (hPoly : ∀ p : SolutionPart Addr Comm, (ops.toProverPoly p ec).isSome = true) :
    (∀ vk : VK, isErr (accumulate ops (.verifier vk) ec sols) = true)
    ∧ (∀ pk : PK, isErr (accumulate ops (.prover pk) ec sols) = true ↔
        (sols = [] ∨ sols.length > ops.maxProverSolutions ∨ ¬ sols.Nodup))
    ∧ (∀ (pk : PK) (c : CoinbaseSolution Addr Comm Pf),
        accumulate ops (.prover pk) ec sols = Except.ok c →
        c.parts = (sols.filter (fun s => !ops.isHiding s.proof)).map (fun s => s.part)) := by
  refine ⟨?_, ?_, ?_⟩
  · intro vk
    simp only [accumulate]
    split_ifs <;> rfl
  · intro pk
    constructor
    · intro hE
      by_contra hn
      push_neg at hn
      obtain ⟨hn1, hn2, hn3⟩ := hn
      rw [accumulate_ok_conditions ops pk ec sols hHC hOpen hn1 (by omega) hn3]
        at hE
      exact Bool.noConfusion hE
    · exact accumulate_err_conditions ops pk ec sols
  · intro pk c hok
    exact accumulate_ok_parts ops pk ec sols hPoly c hok

theorem accumulate_skips_hiding_app :
    (⟨⟨(1 : ℕ), 2, (3 : ℕ)⟩, true⟩ : ProverSolution ℕ ℕ Bool) ∈
      ([⟨⟨1, 2, 3⟩, true⟩, ⟨⟨4, 5, 6⟩, false⟩] : List (ProverSolution ℕ ℕ Bool)) ∧
    isErr (accumulate natPuzzleOps (CoinbasePuzzle.prover (0 : ℕ)) (0 : ℕ)
      ([⟨⟨1, 2, 3⟩, true⟩, ⟨⟨4, 5, 6⟩, false⟩] : List (ProverSolution ℕ ℕ Bool))) = false :=
  ⟨by decide,
    by
      have h := (accumulate_skips_hiding natPuzzleOps 0
        ([⟨⟨1, 2, 3⟩, true⟩, ⟨⟨4, 5, 6⟩, false⟩] : List (ProverSolution ℕ ℕ Bool))
        (fun l => ⟨List.replicate (l.length + 1) 0, rfl, by simp⟩)
        (fun pk2 evals x v => ⟨false, rfl, rfl⟩)
        (fun p => rfl)).2.1 0
      rw [Bool.eq_false_iff]
      intro hT
      have hd := h.mp hT
      revert hd
      decide⟩

end PuzzleTheorems

section GatesTheorems

variable {F S G P C RC D PID IDENT : Type}
variable [CommRing S] [AddCommGroup G] [Module S G]
variable [DecidableEq F] [DecidableEq S] [DecidableEq G]

theorem foldl_or_any (f : ℕ → Bool) :
    ∀ (l : List ℕ) (acc : Bool),
      l.foldl (fun a i => a || f i) acc = (acc || l.any f) := by
  intro l
  induction l with
  | nil => intro acc; simp
  | cons x xs ih => intro acc; simp [List.any_cons, ih, Bool.or_assoc]

theorem gatesHighBitsAny_eq_not_clear (g : ℕ) :
    gatesHighBitsAny g = !gatesHighBitsClear g := by
  unfold gatesHighBitsAny gatesHighBitsClear
  rw [foldl_or_any]
  simp [List.all_eq_not_any_not]

theorem gatesHighBitsClear_false_of_ge (g : ℕ) (h64 : g < 2 ^ 64) (h52 : 2 ^ 52 ≤ g) :
    gatesHighBitsClear g = false := by
  by_contra hcc
  have hclear : gatesHighBitsClear g = true := by
    cases hx : gatesHighBitsClear g
    · exact absurd hx hcc
    · rfl
  have hlist : (List.range 64).drop 52 =
      [52, 53, 54, 55, 56, 57, 58, 59, 60, 61, 62, 63] := by rfl
  unfold gatesHighBitsClear at hclear
  rw [hlist] at hclear
  simp only [List.all_cons, List.all_nil, Bool.and_eq_true, Bool.not_eq_true'] at hclear
  have hlt : g < 2 ^ 52 := by
    apply Nat.lt_pow_two_of_testBit
    intro i hi
    by_cases hc64 : i < 64
    · interval_cases i <;> simp_all
    · exact Nat.testBit_lt_two_pow
        (lt_of_lt_of_le h64 (Nat.pow_le_pow_right (by norm_num) (by omega)))
  omega

theorem gatesHighBitsAny_true_of_ge (g : ℕ) (h64 : g < 2 ^ 64) (h52 : 2 ^ 52 ≤ g) :
    gatesHighBitsAny g = true := by
  rw [gatesHighBitsAny_eq_not_clear, gatesHighBitsClear_false_of_ge g h64 h52]
  rfl

/-- Claim C4: a record input whose 64-bit gates value has a bit at
position 52 or above set (equivalently, gates is at least 2^52, such as
2^52 itself) causes Request::sign to fail, and makes the record-input
check of request verification evaluate to false. -/
theorem record_gates_overflow_rejected
    (nw : Network F S G P C RC D PID IDENT) (sk : PrivateKey S)
    (pid : PID) (fname rname : IDENT) (nonce : F) (r0 : Rec G D)
    (hOwner : r0.owner = signerAddress nw sk)
    (h64 : r0.gates < 2 ^ 64) (h52 : 2 ^ 52 ≤ r0.gates) :
    sign nw sk pid fname [Value.record r0] [ValueType.record rname] nonce = none
    ∧ (∀ (functionId skTag tvk tcm : F) (caller : G) (sg : Signature S G) (idx : ℕ)
        (cm : F) (gamma : G) (sn tag : F),
        ∃ msg, checkInput nw pid fname functionId caller skTag tvk tcm sg idx
          (InputID.record cm gamma sn tag) (Value.record r0) (ValueType.record rname)
          = some (false, msg)) := by
  constructor
  · have hcf : gatesHighBitsClear r0.gates = false :=
      gatesHighBitsClear_false_of_ge r0.gates h64 h52
    simp only [signerAddress] at hOwner
    simp [sign, signInputs, signInput, hOwner, hcf]
  · intro functionId skTag tvk tcm caller sg idx cm gamma sn tag
    refine ⟨recordMsg nw (nw.hashToGroupPsd2 [nw.snDomain, nw.recCommit r0 pid rname])
      (verifierHR sg.challenge sg.response gamma
        (nw.hashToGroupPsd2 [nw.snDomain, nw.recCommit r0 pid rname]))
      gamma (nw.tagOf skTag (nw.recCommit r0 pid rname)), ?_⟩
    simp [checkInput, gatesHighBitsAny_true_of_ge r0.gates h64 h52]

theorem record_gates_overflow_rejected_app :
    (2 : ℕ) ^ 52 ≤ 2 ^ 52 ∧
    sign natNetwork ⟨1, 1⟩ 0 0 [Value.record ⟨2, 2 ^ 52, 0⟩] [ValueType.record 0] 0
      = none :=
  ⟨le_refl _,
    (record_gates_overflow_rejected natNetwork ⟨1, 1⟩ 0 0 0 0 ⟨2, 2 ^ 52, 0⟩
      (by decide) (by decide) (le_refl _)).1⟩

end GatesTheorems

section RoundtripTheorems

variable {F S G P C RC D PID IDENT : Type}
variable [CommRing S] [AddCommGroup G] [Module S G]
variable [DecidableEq F] [DecidableEq S] [DecidableEq G]

theorem checkInput_of_signInput
    (nw : Network F S G P C RC D PID IDENT) (pid : PID) (fname : IDENT)
    (functionId tvk tcm : F) (skSig : S) (skTag : F) (r : S) (caller : G)
    (sg : Signature S G) (hck : sg.response = r - sg.challenge * skSig)
    (idx : ℕ) (v : Value G D P) (ty : ValueType IDENT)
    (iid : InputID F G) (contrib : List F)
    (hs : signInput nw pid fname functionId tvk tcm skSig skTag r caller idx v ty
      = some (iid, contrib)) :
    checkInput nw pid fname functionId caller skTag tvk tcm sg idx iid v ty
      = some (true, contrib) := by
  cases ty with
  | constant =>
    cases v with
    | plaintext p =>
      simp only [signInput] at hs
      split_ifs at hs with hidx
      simp only [Option.some.injEq, Prod.mk.injEq] at hs
      obtain ⟨h1, h2⟩ := hs
      subst h1
      subst h2
      simp [checkInput, Nat.mod_eq_of_lt hidx]
    | record r1 => exact Option.noConfusion hs
  | public =>
    cases v with
    | plaintext p =>
      simp only [signInput] at hs
      split_ifs at hs with hidx
      simp only [Option.some.injEq, Prod.mk.injEq] at hs
      obtain ⟨h1, h2⟩ := hs
      subst h1
      subst h2
      simp [checkInput, Nat.mod_eq_of_lt hidx]
    | record r1 => exact Option.noConfusion hs
  | priv =>
    cases v with
    | plaintext p =>
      simp only [signInput] at hs
      split_ifs at hs with hidx
      simp only [Option.some.injEq, Prod.mk.injEq] at hs
      obtain ⟨h1, h2⟩ := hs
      subst h1
      subst h2
      simp [checkInput, Nat.mod_eq_of_lt hidx]
    | record r1 => exact Option.noConfusion hs
  | record name =>
    cases v with
    | plaintext p => exact Option.noConfusion hs
    | record r1 =>
      simp only [signInput] at hs
      split_ifs at hs with how hgc
      simp only [Option.some.injEq, Prod.mk.injEq] at hs
      obtain ⟨h1, h2⟩ := hs
      subst h1
      subst h2
      have hany : gatesHighBitsAny r1.gates = false := by
        rw [gatesHighBitsAny_eq_not_clear, hgc]
        rfl
      have hhr : verifierHR sg.challenge sg.response
          (skSig • nw.hashToGroupPsd2 [nw.snDomain, nw.recCommit r1 pid name])
          (nw.hashToGroupPsd2 [nw.snDomain, nw.recCommit r1 pid name])
          = r • nw.hashToGroupPsd2 [nw.snDomain, nw.recCommit r1 pid name] := by
        rw [hck]
        exact challenge_response_smul skSig r sg.challenge _
      simp [checkInput, how, hany, hhr]
  | external =>
    cases v with
    | plaintext p => exact Option.noConfusion hs
    | record r1 =>
      simp only [signInput] at hs
      split_ifs at hs with hidx
      simp only [Option.some.injEq, Prod.mk.injEq] at hs
      obtain ⟨h1, h2⟩ := hs
      subst h1
      subst h2
      simp [checkInput, Nat.mod_eq_of_lt hidx]

theorem checkInputs_of_signInputs
    (nw : Network F S G P C RC D PID IDENT) (pid : PID) (fname : IDENT)
    (functionId tvk tcm : F) (skSig : S) (skTag : F) (r : S) (caller : G)
    (sg : Signature S G) (hck : sg.response = r - sg.challenge * skSig) :
    ∀ (pairs : List (Value G D P × ValueType IDENT)) (idx : ℕ)
      (ids : List (InputID F G)) (msg : List F),
      signInputs nw pid fname functionId tvk tcm skSig skTag r caller idx pairs
        = some (ids, msg) →
      checkInputs nw pid fname functionId caller skTag tvk tcm sg idx (ids.zip pairs)
        = some (true, msg) := by
  intro pairs
  induction pairs with
  | nil =>
    intro idx ids msg hs
    simp only [signInputs, Option.some.injEq, Prod.mk.injEq] at hs
    obtain ⟨h1, h2⟩ := hs
    subst h1
    subst h2
    simp [checkInputs]
  | cons pr rest ih =>
    obtain ⟨v, ty⟩ := pr
    intro idx ids msg hs
    simp only [signInputs] at hs
    cases hsi : signInput nw pid fname functionId tvk tcm skSig skTag r caller idx v ty with
    | none => rw [hsi] at hs; exact Option.noConfusion hs
    | some out =>
      obtain ⟨iid, contrib⟩ := out
      rw [hsi] at hs
      cases hrest : signInputs nw pid fname functionId tvk tcm skSig skTag r caller
          (idx + 1) rest with
      | none => rw [hrest] at hs; exact Option.noConfusion hs
      | some out2 =>
        obtain ⟨ids2, msg2⟩ := out2
        rw [hrest] at hs
        have hs2 : (some (iid :: ids2, contrib ++ msg2) : Option (List (InputID F G) × List F))
            = some (ids, msg) := hs
        simp only [Option.some.injEq, Prod.mk.injEq] at hs2
        obtain ⟨h1, h2⟩ := hs2
        subst h1
        subst h2
        rw [List.zip_cons_cons]
        simp only [checkInputs]
        rw [checkInput_of_signInput nw pid fname functionId tvk tcm skSig skTag r caller
          sg hck idx v ty iid contrib hsi]
        rw [ih (idx + 1) ids2 msg2 hrest]
        rfl

theorem signInput_isSome
    (nw : Network F S G P C RC D PID IDENT) (pid : PID) (fname : IDENT)
    (functionId tvk tcm : F) (skSig : S) (skTag : F) (r : S) (caller : G)
    (idx : ℕ) (v : Value G D P) (ty : ValueType IDENT)
    (hidx : idx < 65536) (hv : ValidPair caller v ty) :
    (signInput nw pid fname functionId tvk tcm skSig skTag r caller idx v ty).isSome
      = true := by
  cases ty with
  | constant =>
    cases v with
    | plaintext p => simp [signInput, hidx]
    | record r1 => exact absurd hv (by simp [ValidPair])
  | public =>
    cases v with
    | plaintext p => simp [signInput, hidx]
    | record r1 => exact absurd hv (by simp [ValidPair])
  | priv =>
    cases v with
    | plaintext p => simp [signInput, hidx]
    | record r1 => exact absurd hv (by simp [ValidPair])
  | record name =>
    cases v with
    | plaintext p => exact absurd hv (by simp [ValidPair])
    | record r1 =>
      obtain ⟨h1, h2⟩ := hv
      simp [signInput, h1, h2]
  | external =>
    cases v with
    | plaintext p => exact absurd hv (by simp [ValidPair])
    | record r1 => simp [signInput, hidx]

theorem signInputs_total
    (nw : Network F S G P C RC D PID IDENT) (pid : PID) (fname : IDENT)
    (functionId tvk tcm : F) (skSig : S) (skTag : F) (r : S) (caller : G) :
    ∀ (pairs : List (Value G D P × ValueType IDENT)) (idx : ℕ),
      (∀ p ∈ pairs, ValidPair caller p.1 p.2) → idx + pairs.length ≤ 65536 →
      ∃ ids msg,
        signInputs nw pid fname functionId tvk tcm skSig skTag r caller idx pairs
          = some (ids, msg) ∧ ids.length = pairs.length := by
  intro pairs
  induction pairs with
  | nil => intro idx hval hb; exact ⟨[], [], rfl, rfl⟩
  | cons pr rest ih =>
    obtain ⟨v, ty⟩ := pr
    intro idx hval hb
    simp only [List.length_cons] at hb
    obtain ⟨out, hout⟩ := Option.isSome_iff_exists.mp
      (signInput_isSome nw pid fname functionId tvk tcm skSig skTag r caller idx v ty
        (by omega) (hval (v, ty) (List.mem_cons_self _ _)))
    obtain ⟨iid, contrib⟩ := out
    obtain ⟨ids, msg, hr2, hl⟩ := ih (idx + 1)
      (fun q hq => hval q (List.mem_cons_of_mem _ hq)) (by omega)
    refine ⟨iid :: ids, contrib ++ msg, ?_, by simp [hl]⟩
    simp [signInputs, hout, hr2]

theorem verify_components
    (nw : Network F S G P C RC D PID IDENT) (pid : PID) (fname : IDENT)
    (inputTypes : List (ValueType IDENT))
    (skSig r challenge response : S) (skTag tvk tcm fid : F)
    (pkSig prSig caller gr : G)
    (ids : List (InputID F G)) (inputs : List (Value G D P)) (contribs : List F)
    (hpk : pkSig = skSig • nw.gBase)
    (hcaller : caller = nw.toAddr pkSig prSig)
    (hgr : gr = r • nw.gBase)
    (htvk : tvk = nw.xCoord (r • caller))
    (htcm : tcm = nw.hashPsd2 [tvk])
    (hfid : fid = nw.functionId nw.netId pid fname)
    (hch : challenge = nw.hashToScalarPsd8 ([nw.xCoord gr, nw.xCoord pkSig, nw.xCoord prSig,
      nw.xCoord caller, tvk, tcm, fid] ++ contribs))
    (hresp : response = r - challenge * skSig)
    (hsi : signInputs nw pid fname fid tvk tcm skSig skTag r caller 0
      (inputs.zip inputTypes) = some (ids, contribs))
    (hids : ids.length = inputs.length)
    (hlen : inputs.length = inputTypes.length) :
    verify nw ⟨caller, nw.netId, pid, fname, ids, inputs,
        ⟨challenge, response, ⟨pkSig, prSig⟩⟩, skTag, tvk, r, tcm⟩ inputTypes
      (toTpk nw ⟨caller, nw.netId, pid, fname, ids, inputs,
        ⟨challenge, response, ⟨pkSig, prSig⟩⟩, skTag, tvk, r, tcm⟩) = some true := by
  have hck : (Signature.mk challenge response ⟨pkSig, prSig⟩).response
      = r - (Signature.mk challenge response ⟨pkSig, prSig⟩).challenge * skSig := hresp
  have hchk := checkInputs_of_signInputs nw pid fname fid tvk tcm skSig skTag r caller
    ⟨challenge, response, ⟨pkSig, prSig⟩⟩ hck (inputs.zip inputTypes) 0 ids contribs hsi
  have htpk : toTpk nw ⟨caller, nw.netId, pid, fname, ids, inputs,
      ⟨challenge, response, ⟨pkSig, prSig⟩⟩, skTag, tvk, r, tcm⟩ = gr := by
    show challenge • pkSig + response • nw.gBase = gr
    rw [hpk, hresp, hgr]
    exact challenge_response_smul skSig r challenge nw.gBase
  simp only [verify]
  dsimp only
  rw [← hfid]
  rw [if_pos ⟨hids, hlen⟩]
  rw [hchk]
  rw [htpk]
  simp [hcaller, htvk, htcm, hch, hgr]

/-- Claim C1: for every valid tuple of private key, program ID, function
name, inputs and input types (matching lengths, each input matching its
declared type, every record input owned by the signer address with gates
fitting in 52 bits), verifying the request produced by Request::sign with
the transition public key derived from it returns true. -/
theorem sign_verify_roundtrip
    (nw : Network F S G P C RC D PID IDENT) (sk : PrivateKey S)
    (pid : PID) (fname : IDENT) (inputs : List (Value G D P))
    (inputTypes : List (ValueType IDENT)) (nonce : F)
    (hlen : inputs.length = inputTypes.length)
    (hbound : inputs.length ≤ 65536)
    (hvalid : ∀ p ∈ inputs.zip inputTypes, ValidPair (signerAddress nw sk) p.1 p.2) :
    ∃ req, sign nw sk pid fname inputs inputTypes nonce = some req ∧
      verify nw req inputTypes (toTpk nw req) = some true := by
  have hzl : (inputs.zip inputTypes).length = inputs.length := by
    rw [List.length_zip]
    omega
  set PK := sk.skSig • nw.gBase with hPK
  set PR := sk.rSig • nw.gBase with hPR
  set CAL := nw.toAddr PK PR with hCAL
  set R := nw.hashToScalarPsd4 [nw.snDomain, nw.scalarToField sk.skSig, nonce] with hR
  set TVK := nw.xCoord (R • CAL) with hTVK
  set TCM := nw.hashPsd2 [TVK] with hTCM
  set FID := nw.functionId nw.netId pid fname with hFID
  obtain ⟨ids, contribs, hsi, hlens⟩ :=
    signInputs_total nw pid fname FID TVK TCM sk.skSig (nw.skTagOf sk.skSig sk.rSig) R CAL
      (inputs.zip inputTypes) 0 hvalid (by omega)
  set CH := nw.hashToScalarPsd8 ([nw.xCoord (R • nw.gBase), nw.xCoord PK, nw.xCoord PR,
    nw.xCoord CAL, TVK, TCM, FID] ++ contribs) with hCH
  refine ⟨⟨CAL, nw.netId, pid, fname, ids, inputs,
    ⟨CH, R - CH * sk.skSig, ⟨PK, PR⟩⟩, nw.skTagOf sk.skSig sk.rSig, TVK, R, TCM⟩, ?_, ?_⟩
  · simp only [sign]
    rw [if_neg (by omega)]
    rw [← hPK, ← hPR, ← hCAL, ← hR, ← hTVK, ← hTCM, ← hFID]
    rw [hsi]
  · exact verify_components nw pid fname inputTypes sk.skSig R CH (R - CH * sk.skSig)
      (nw.skTagOf sk.skSig sk.rSig) TVK TCM FID PK PR CAL (R • nw.gBase) ids inputs contribs
      hPK hCAL rfl hTVK hTCM hFID hCH rfl hsi (hlens.trans hzl) hlen

theorem sign_verify_roundtrip_app :
    ∃ req, sign natNetwork ⟨1, 1⟩ 0 0 [Value.plaintext 0] [ValueType.constant] 0 = some req ∧
      verify natNetwork req [ValueType.constant] (toTpk natNetwork req) = some true :=
  sign_verify_roundtrip natNetwork ⟨1, 1⟩ 0 0 [Value.plaintext 0] [ValueType.constant] 0
    rfl (by decide)
    (by
      intro p hp
      rcases List.mem_singleton.mp hp with rfl
      trivial)

end RoundtripTheorems

end SnarkVM
